import Mathlib

/-!
Verification of the archive cache and retrieval engine of
`archives_manager.py` (online-chess-win-predictions).

The Python module is shallowly embedded below:

* a `Game` record mirrors the archived-game dictionary returned by the
  remote source (the fields read by the embedded operations; the optional
  `accuracies` object is modelled by its presence, since no embedded
  operation reads the numeric accuracy values);
* in-place mutation of the games list by `_correct_archive_elo` is
  modelled as a pure list transformation;
* code that can raise (`get_elo`/`get_won` on a player matching neither
  side, `_extract_url_data` returning `None` and being subscripted,
  non-200 HTTP responses) returns `Option`/`Except`;
* Python machine integers are `Int`/`Nat` (chess ratings and unix
  timestamps are far from any overflow boundary, and Python integers are
  unbounded anyway); the floating-point accumulation
  `average_abs_elo_change += abs(elo_change)/(n-1)` is modelled by the
  exact rational mean, and Python 3's `round` (round half to even) by an
  integer half-to-even rounded division;
* `time.gmtime` is an external library call; the scanners take the
  (year, month)-of-a-timestamp function `ym` as an explicit parameter,
  and theorems that need it assume only its monotonicity;
* the two file-backed cache tiers are association-list stores, and the
  `requests` session is an explicit response/oracle parameter.
-/

/-! ## Basic model: sides, games, case-insensitive matching -/

/-- ASCII lower-casing of a string, modelling Python `str.lower` on the
ASCII user names this code handles. -/
def str_lower (s : String) : String :=
  String.mk (s.data.map Char.toLower)

/-- `_case_insensitive_match` from the source. -/
def case_insensitive_match (a b : String) : Bool :=
  str_lower a == str_lower b

/-- One side (`white`/`black`) of an archived game: the sub-dictionary
`{username, rating, result}`. -/
structure Side where
  username : String
  rating : Int
  result : String
deriving DecidableEq, Repr, BEq

/-- An archived game record, with the fields the embedded operations read.
`rated` and `rules` model `dict.get` (absent key = `none`); `accuracies`
models presence of the optional `accuracies` object. -/
structure Game where
  end_time : Int
  time_class : String
  white : Side
  black : Side
  rated : Option Bool
  accuracies : Option Unit
  rules : Option String
deriving DecidableEq, Repr, BEq

/-- `get_elo`: the pair (perspective player's rating, opponent's rating);
`none` models the `ValueError` when the player matches neither side. -/
def get_elo (g : Game) (player_name : String) : Option (Int × Int) :=
  if case_insensitive_match g.white.username player_name then
    some (g.white.rating, g.black.rating)
  else if case_insensitive_match g.black.username player_name then
    some (g.black.rating, g.white.rating)
  else
    none

/-- `get_won`: `some (some 1)` = won, `some (some 0)` = lost,
`some none` = draw (neither result is "win"); outer `none` models the
`ValueError` when the player matches neither side. -/
def get_won (g : Game) (player_name : String) : Option (Option Nat) :=
  if case_insensitive_match g.white.username player_name then
    some (if g.white.result == "win" then some 1
          else if g.black.result == "win" then some 0
          else none)
  else if case_insensitive_match g.black.username player_name then
    some (if g.white.result == "win" then some 0
          else if g.black.result == "win" then some 1
          else none)
  else
    none

/-! ## Rating reconstruction (`_correct_archive_elo`) -/

/-- Half-to-even rounded division `round(S / d)` on naturals, the exact
value of Python 3's `round` applied to the non-negative rational `S / d`
(the source accumulates `abs(elo_change)/(n-1)` in floating point; the
embedding uses the exact mean). -/
def roundHalfEvenDiv (S d : Nat) : Nat :=
  let q := S / d
  let r := S % d
  if 2 * r < d then q
  else if 2 * r > d then q + 1
  else if q % 2 = 0 then q else q + 1

/-- The per-game update in the correction loop: the perspective player's
side gets the carried-over rating `prev`, the other side gets
`elo_change = cur - prev` added, where `cur` is the player's reported
rating in this game. -/
def adjustGame (player_name : String) (g : Game) (prev cur : Int) : Game :=
  if case_insensitive_match g.white.username player_name then
    { g with white := { g.white with rating := prev },
             black := { g.black with rating := g.black.rating + (cur - prev) } }
  else
    { g with black := { g.black with rating := prev },
             white := { g.white with rating := g.white.rating + (cur - prev) } }

/-- The loop `for archived_game in archived_games[1:]` of
`_correct_archive_elo`: corrects each game from the carried-over player
rating `prev`, and accumulates the sum of `abs(elo_change)` (the source
accumulates the running mean; summing and dividing once is the same exact
rational). Fails (`none`) where `get_elo` would raise. -/
def correctTail (player_name : String) : Int → List Game → Option (List Game × Nat)
  | _, [] => some ([], 0)
  | prev, g :: gs =>
    match get_elo g player_name with
    | none => none
    | some (cur, _) =>
      match correctTail player_name cur gs with
      | none => none
      | some (gs', S) =>
        some (adjustGame player_name g prev cur :: gs', S + (cur - prev).natAbs)

/-- First-game heuristic of `_correct_archive_elo`: apply the rounded
mean absolute elo change `est` in the direction implied by `won`. -/
def adjustFirstGame (player_name : String) (g : Game) (won : Nat) (est : Int) : Game :=
  if case_insensitive_match g.white.username player_name then
    if won = 1 then
      { g with white := { g.white with rating := g.white.rating - est },
               black := { g.black with rating := g.black.rating + est } }
    else
      { g with white := { g.white with rating := g.white.rating + est },
               black := { g.black with rating := g.black.rating - est } }
  else
    if won = 1 then
      { g with white := { g.white with rating := g.white.rating + est },
               black := { g.black with rating := g.black.rating - est } }
    else
      { g with white := { g.white with rating := g.white.rating - est },
               black := { g.black with rating := g.black.rating + est } }

/-- `_correct_archive_elo`: convert reported post-game ratings into
pre-game ratings, in place on the chronological list. Lists of length
below 2 are returned unchanged (the `n < 2` early return, before any
`get_elo` call). -/
def correct_archive_elo (games : List Game) (player_name : String) : Option (List Game) :=
  match games with
  | [] => some []
  | [g] => some [g]
  | g0 :: rest =>
    match get_elo g0 player_name with
    | none => none
    | some (e0, _) =>
      match correctTail player_name e0 rest with
      | none => none
      | some (rest', S) =>
        match get_won g0 player_name with
        | none => none
        | some won =>
          let est : Int := (roundHalfEvenDiv S rest.length : Nat)
          match won with
          | none => some (g0 :: rest')
          | some w => some (adjustFirstGame player_name g0 w est :: rest')

/-- The perspective player's rating in the `i`-th game of a list
(`none` out of range or player not in the game). -/
def playerEloAt (l : List Game) (i : Nat) (player_name : String) : Option Int :=
  match l[i]? with
  | none => none
  | some g => (get_elo g player_name).map (·.1)

/-! ## Month-URL parsing (`_extract_url_data`) -/

/-- Does `cs` start with the literal pattern `pat`? -/
def charsMatch : List Char → List Char → Bool
  | [], _ => true
  | _ :: _, [] => false
  | p :: ps, c :: cs => p == c && charsMatch ps cs

/-- Attempt the pattern
`https://api.chess.com/pub/player/([^/]+)/games/(\d{4})/(\d{2})`
at the head of `cs`, returning the three capture groups. The character
class `[^/]+` is greedy and cannot backtrack productively (shrinking it
leaves a non-slash where `/` is required), so it is exactly the maximal
slash-free run. -/
def matchMonthUrlAt (cs : List Char) : Option (String × String × String) :=
  let lit := "https://api.chess.com/pub/player/".data
  if charsMatch lit cs then
    let rest := cs.drop lit.length
    let player := rest.takeWhile (fun c => c ≠ '/')
    if player.isEmpty then none
    else
      match rest.drop player.length with
      | '/' :: r3 =>
        if charsMatch "games/".data r3 then
          let r4 := r3.drop 6
          let year := r4.take 4
          if year.length = 4 && year.all Char.isDigit then
            match r4.drop 4 with
            | '/' :: r6 =>
              let mon := r6.take 2
              if mon.length = 2 && mon.all Char.isDigit then
                some (String.mk player, String.mk year, String.mk mon)
              else none
            | _ => none
          else none
        else none
      | _ => none
  else none

/-- `re.search` scans for the first position where the pattern matches. -/
def searchMonthUrl : List Char → Option (String × String × String)
  | [] => none
  | c :: cs =>
    match matchMonthUrlAt (c :: cs) with
    | some r => some r
    | none => searchMonthUrl cs

/-- `_extract_url_data`: the `(player_name, year, month)` groups of a
month-archive URL, or `none` when the URL does not conform. -/
def extract_url_data (month_url : String) : Option (String × String × String) :=
  searchMonthUrl month_url.data

/-- Decimal parse of a digit string, modelling Python `int()` on the
regex groups (which are guaranteed all-digit). -/
def digitsToNat (cs : List Char) : Option Nat :=
  if cs.isEmpty then none
  else if cs.all Char.isDigit then
    some (cs.foldl (fun n c => n * 10 + (c.toNat - '0'.toNat)) 0)
  else none

/-- `(int(url_data['year']), int(url_data['month']))` for a month-URL. -/
def monthKey (month_url : String) : Option (Int × Int) :=
  match extract_url_data month_url with
  | none => none
  | some (_, y, m) =>
    match digitsToNat y.data, digitsToNat m.data with
    | some yn, some mn => some ((yn : Int), (mn : Int))
    | _, _ => none

/-! ## Month-range selection

`time.gmtime` is an external call; the embedded filters take the
(year, month)-of-a-timestamp function `ym` as a parameter. -/

/-- `_filterOutArchiveListAfterUnixTimestamp`: keep month-URLs whose
(year, month) is at most the timestamp's (year first, then month).
`none` models the `TypeError` on a URL that fails to parse. -/
def filterOutArchiveListAfterUnixTimestamp (ym : Int → Int × Int) :
    List String → Int → Option (List String)
  | [], _ => some []
  | u :: us, ts =>
    match monthKey u with
    | none => none
    | some (y, m) =>
      match filterOutArchiveListAfterUnixTimestamp ym us ts with
      | none => none
      | some rest =>
        if y < (ym ts).1 ∨ (y = (ym ts).1 ∧ m ≤ (ym ts).2) then some (u :: rest)
        else some rest

/-- `_filterOutArchiveListBeforeUnixTimestamp`: keep month-URLs whose
(year, month) is at least the timestamp's. -/
def filterOutArchiveListBeforeUnixTimestamp (ym : Int → Int × Int) :
    List String → Int → Option (List String)
  | [], _ => some []
  | u :: us, ts =>
    match monthKey u with
    | none => none
    | some (y, m) =>
      match filterOutArchiveListBeforeUnixTimestamp ym us ts with
      | none => none
      | some rest =>
        if y > (ym ts).1 ∨ (y = (ym ts).1 ∧ m ≥ (ym ts).2) then some (u :: rest)
        else some rest

/-! ## Cache file paths -/

/-- `_monthlyArchivesFilePath`: tier-1 key, lower-cased player name
(`os.path.join` rendered with `/`). -/
def monthlyArchivesFilePath (player_name : String) : String :=
  "json/archive_lists/" ++ str_lower player_name ++ ".json"

/-- `_archivedGamesFilePath`: tier-2 path. The source computes
`file_name = f'{player_name.lower()}.json'` but never uses it; the path
actually joined is `json/archives/{player_name}/{year}/{month}.json`
with the raw (case-preserved) player name. -/
def archivedGamesFilePath (player_name year month : String) : String :=
  "json/archives/" ++ player_name ++ "/" ++ year ++ "/" ++ month ++ ".json"

/-! ## Predicate builder (`build_archive_filter`) -/

/-- `build_archive_filter`: the composite inclusion predicate over the
five optional criteria (`none` = the Python default/`None`, "don't
care"; the source's `rules` parameter defaults to `'chess'`, i.e.
`some "chess"`). Checks run in source order with early `False`. -/
def build_archive_filter (rated : Option Bool) (has_accuracies : Option Bool)
    (exclude_draws : Option Bool) (max_elo_diff : Option Int) (rules : Option String)
    (g : Game) : Bool :=
  if (match max_elo_diff with
      | some m => decide (|g.white.rating - g.black.rating| > m)
      | none => false) then false
  else if (match has_accuracies with
      | some b => (!g.accuracies.isSome && b) || (g.accuracies.isSome && !b)
      | none => false) then false
  else if (match rated with
      | some r => g.rated != some r
      | none => false) then false
  else if (match exclude_draws with
      | some _ => g.white.result != "win" && g.black.result != "win"
      | none => false) then false
  else if (match rules with
      | some r => g.rules != some r
      | none => false) then false
  else true

/-! ## The two scanners -/

/-- Does the game match the requested time class? (`none` = no
filtering, mirroring `time_class is not None and ... != time_class`). -/
def tcPass (tc : Option String) (g : Game) : Bool :=
  match tc with
  | none => true
  | some c => g.time_class == c

/-- The `filtered` flag recorded per kept game:
`True if (filter_func and filter_func(archived_game) == False) else False`. -/
def filteredFlag (pred : Option (Game → Bool)) (g : Game) : Bool :=
  match pred with
  | none => false
  | some f => f g == false

/-- Does the game pass the supplied predicate (trivially when none)? -/
def predPass (pred : Option (Game → Bool)) (g : Game) : Bool :=
  match pred with
  | none => true
  | some f => f g

/-- The window test of `get_games_between_timestamps`, mirroring
`if unix_timestamp > end_unix or unix_timestamp < start_unix: continue`. -/
def windowPass (start_unix end_unix : Int) (g : Game) : Bool :=
  !(g.end_time > end_unix || g.end_time < start_unix)

/-- `[game_dict['game'] for game_dict in ... if not game_dict['filtered']]`,
rendered on the (games, flags) position pair (the source shares the
mutated game objects between the raw and the flagged view). -/
def selectUnfiltered (gs : List Game) (flags : List Bool) : List Game :=
  ((gs.zip flags).filter (fun q => !q.2)).map (·.1)

/-- Scanner state of `get_most_recent_games`: the `games_searched` and
`num_unfiltered` counters and the `recent_archived_games` buffer (in
visit order, newest first). -/
structure ScanState where
  searched : Nat
  unfiltered : Nat
  acc : List (Game × Bool)
deriving DecidableEq, Repr

/-- The loop-break condition
`num_unfiltered == num_games or games_searched == max_games_searched`. -/
def stopCond (num_games max_searched : Nat) (s : ScanState) : Bool :=
  s.unfiltered == num_games || s.searched == max_searched

/-- One visit of the bounded-count scan body, without the break check:
increment `games_searched`, then skip on time-class mismatch, else
record the game with its filtered flag and bump `num_unfiltered`. -/
def visitGame (tc : Option String) (pred : Option (Game → Bool))
    (s : ScanState) (g : Game) : ScanState :=
  let s1 : ScanState := { s with searched := s.searched + 1 }
  if !tcPass tc g then s1
  else
    let fl := filteredFlag pred g
    { s1 with acc := s1.acc ++ [(g, fl)],
              unfiltered := if fl then s1.unfiltered else s1.unfiltered + 1 }

/-- `visitGame` folded over a list (the scan with no break condition). -/
def visitAll (tc : Option String) (pred : Option (Game → Bool)) :
    ScanState → List Game → ScanState
  | s, [] => s
  | s, g :: gs => visitAll tc pred (visitGame tc pred s g) gs

/-- The inner loop of `get_most_recent_games` over one month's games
(already reversed to newest-first): break condition checked at the top
of each iteration, then the visit body. -/
def scanMonthGames (num_games max_searched : Nat) (tc : Option String)
    (pred : Option (Game → Bool)) : ScanState → List Game → ScanState
  | s, [] => s
  | s, g :: gs =>
    if stopCond num_games max_searched s then s
    else scanMonthGames num_games max_searched tc pred (visitGame tc pred s g) gs

/-- The outer loop of `get_most_recent_games` over months (already
reversed to newest-first), with the break check after each month. -/
def scanMonths (num_games max_searched : Nat) (tc : Option String)
    (pred : Option (Game → Bool)) : ScanState → List (List Game) → ScanState
  | s, [] => s
  | s, gs :: rest =>
    let s' := scanMonthGames num_games max_searched tc pred s gs
    if stopCond num_games max_searched s' then s'
    else scanMonths num_games max_searched tc pred s' rest

/-- All cached games of the player in index order (oldest month first,
stored in-month order): the archive the scanners walk. `getGames`
models `_getArchivedGames` for a fully cached player, `index` the
cached `_getMonthlyArchivesList` result. -/
def archiveGames (getGames : String → List Game) (index : List String) : List Game :=
  (index.map getGames).flatten

/-- `get_most_recent_games`. `index`/`getGames` stand for the cached
archive list and cached month fetches; `max_searched_opt = none` is the
Python default `max_games_searched=None`. -/
def get_most_recent_games (getGames : String → List Game) (player_name : String)
    (num_games : Nat) (tc : Option String) (pred : Option (Game → Bool))
    (correct_elo : Bool) (max_searched_opt : Option Nat) (index : List String) :
    Option (List Game) :=
  let max_searched := max_searched_opt.getD (num_games * 10)
  let st := scanMonths num_games max_searched tc pred ⟨0, 0, []⟩
      (index.reverse.map (fun u => (getGames u).reverse))
  let recent := st.acc.reverse
  let gamesList := recent.map (·.1)
  match (if correct_elo then correct_archive_elo gamesList player_name else some gamesList) with
  | none => none
  | some finalGames =>
    some (match pred with
          | none => finalGames
          | some _ => selectUnfiltered finalGames (recent.map (·.2)))

/-- The per-month body of `get_games_between_timestamps` on one month's
games in visit order: the window check, the time-class check, then the
record with its filtered flag. -/
def windowScanMonth (start_unix end_unix : Int) (tc : Option String)
    (pred : Option (Game → Bool)) (gs : List Game) : List (Game × Bool) :=
  (gs.filter (fun g => windowPass start_unix end_unix g && tcPass tc g)).map
    (fun g => (g, filteredFlag pred g))

/-- `get_games_between_timestamps`: narrow the month index to the
timestamp window (both narrowings inclusive at the boundary month), scan
every game of the narrowed months newest-first with the per-game window
and time-class checks, reverse back to chronological order, optionally
correct ratings, and return the raw or predicate-filtered view. -/
def get_games_between_timestamps (ym : Int → Int × Int) (getGames : String → List Game)
    (player_name : String) (start_unix end_unix : Int) (tc : Option String)
    (pred : Option (Game → Bool)) (correct_elo : Bool) (index : List String) :
    Option (List Game) :=
  match filterOutArchiveListAfterUnixTimestamp ym index end_unix with
  | none => none
  | some l1 =>
    match filterOutArchiveListBeforeUnixTimestamp ym l1 start_unix with
    | none => none
    | some l2 =>
      let collected :=
        (l2.reverse.map (fun u => windowScanMonth start_unix end_unix tc pred (getGames u).reverse)).flatten
      let recent := collected.reverse
      let gamesList := recent.map (·.1)
      match (if correct_elo then correct_archive_elo gamesList player_name else some gamesList) with
      | none => none
      | some finalGames =>
        some (match pred with
              | none => finalGames
              | some _ => selectUnfiltered finalGames (recent.map (·.2)))

/-! ## Cache stores -/

/-- Carried by the exception message of `ArchiveRetrievalError` raised
for a player-index request: the player and the HTTP status code. -/
structure RetrievalError where
  player : String
  statusCode : Nat
deriving DecidableEq, Repr

/-- A remote response to the archives-list request: HTTP status and the
`archives` list of the JSON body (read only on success). -/
structure ListResponse where
  status : Nat
  archives : List String
deriving DecidableEq, Repr

/-- Tier-1 store: one blob per lower-cased player name
(`json/archive_lists/{player.lower()}.json`). Writes prepend; reads take
the newest entry, modelling file overwrite. -/
structure ListStore where
  entries : List (String × List String)
deriving DecidableEq, Repr

/-- `_monthlyArchivesListExists` + `_readMonthlyArchivesList`. -/
def lookupList (st : ListStore) (player_name : String) : Option (List String) :=
  (st.entries.find? (fun e => e.1 == str_lower player_name)).map (·.2)

/-- `_saveMonthlyArchivesList`. -/
def saveList (st : ListStore) (player_name : String) (d : List String) : ListStore :=
  ⟨(str_lower player_name, d) :: st.entries⟩

/-- `_requestMonthlyArchivesList`: only HTTP 200 is a success; anything
else raises `ArchiveRetrievalError` carrying the status code. -/
def requestMonthlyArchivesList (resp : ListResponse) (player_name : String) :
    Except RetrievalError (List String) :=
  if resp.status = 200 then Except.ok resp.archives
  else Except.error ⟨player_name, resp.status⟩

/-- `_getMonthlyArchivesList` (the tier-1 read-through `getPlayerIndex`):
serve from the store if present, else request, persist on success only,
and propagate the error with the store unchanged. -/
def getMonthlyArchivesList (resp : ListResponse) (player_name : String) (st : ListStore) :
    Except RetrievalError (List String) × ListStore :=
  match lookupList st player_name with
  | some d => (Except.ok d, st)
  | none =>
    match requestMonthlyArchivesList resp player_name with
    | Except.ok d => (Except.ok d, saveList st player_name d)
    | Except.error e => (Except.error e, st)

/-- Tier-2 store: one blob per `(player, year, month)` triple as parsed
from the month-URL (the raw player capture, see
`archivedGamesFilePath`). -/
structure GamesStore where
  entries : List ((String × String × String) × List Game)
deriving Repr

/-- `_archivedGamesExists` + `_readArchivedGames`. -/
def lookupGames (st : GamesStore) (k : String × String × String) : Option (List Game) :=
  (st.entries.find? (fun e => e.1 == k)).map (·.2)

/-- `_saveArchivedGames`. -/
def saveGames (st : GamesStore) (k : String × String × String) (d : List Game) : GamesStore :=
  ⟨(k, d) :: st.entries⟩

/-- `_getArchivedGames` (the tier-2 read-through `getMonthArchive`):
parse the URL (`none` models the crash on a malformed URL), serve from
the store when the triple is present, else fetch from the remote oracle
and persist. The returned `Nat` counts remote fetches performed by the
call (0 or 1). -/
def getArchivedGames (remote : String → List Game) (month_url : String) (st : GamesStore) :
    Option (List Game × GamesStore × Nat) :=
  match extract_url_data month_url with
  | none => none
  | some k =>
    match lookupGames st k with
    | some d => some (d, st, 0)
    | none => some (remote month_url, saveGames st k (remote month_url), 1)

/-! ## Scan-machinery lemmas -/

lemma visitGame_searched (tc : Option String) (pred : Option (Game → Bool))
    (s : ScanState) (g : Game) :
    (visitGame tc pred s g).searched = s.searched + 1 := by
  unfold visitGame
  split <;> rfl

lemma visitGame_acc (tc : Option String) (pred : Option (Game → Bool))
    (s : ScanState) (g : Game) :
    (visitGame tc pred s g).acc
      = s.acc ++ (if tcPass tc g then [(g, filteredFlag pred g)] else []) := by
  unfold visitGame
  rcases h : tcPass tc g <;> simp [h]

lemma visitGame_unfiltered (tc : Option String) (pred : Option (Game → Bool))
    (s : ScanState) (g : Game) :
    (visitGame tc pred s g).unfiltered
      = s.unfiltered + (if tcPass tc g && !filteredFlag pred g then 1 else 0) := by
  unfold visitGame
  rcases h : tcPass tc g <;> rcases h2 : filteredFlag pred g <;> simp [h, h2]

lemma visitAll_searched (tc : Option String) (pred : Option (Game → Bool)) :
    ∀ (l : List Game) (s : ScanState),
      (visitAll tc pred s l).searched = s.searched + l.length := by
  intro l
  induction l with
  | nil => intro s; simp [visitAll]
  | cons g gs ih =>
    intro s
    simp only [visitAll, ih, visitGame_searched, List.length_cons]
    omega

lemma visitAll_acc (tc : Option String) (pred : Option (Game → Bool)) :
    ∀ (l : List Game) (s : ScanState),
      (visitAll tc pred s l).acc
        = s.acc ++ (l.filter (tcPass tc)).map (fun g => (g, filteredFlag pred g)) := by
  intro l
  induction l with
  | nil => intro s; simp [visitAll]
  | cons g gs ih =>
    intro s
    rcases h : tcPass tc g <;>
      simp [visitAll, ih, visitGame_acc, h, List.filter_cons]

lemma visitAll_unfiltered (tc : Option String) (pred : Option (Game → Bool)) :
    ∀ (l : List Game) (s : ScanState),
      (visitAll tc pred s l).unfiltered
        = s.unfiltered
          + (l.filter (fun g => tcPass tc g && !filteredFlag pred g)).length := by
  intro l
  induction l with
  | nil => intro s; simp [visitAll]
  | cons g gs ih =>
    intro s
    rcases h : (tcPass tc g && !filteredFlag pred g)
    · simp [visitAll, ih, visitGame_unfiltered, h, List.filter_cons]
    · simp [visitAll, ih, visitGame_unfiltered, h, List.filter_cons]
      omega

lemma scanMonthGames_stop (N M : Nat) (tc : Option String) (pred : Option (Game → Bool))
    (s : ScanState) (l : List Game) (h : stopCond N M s = true) :
    scanMonthGames N M tc pred s l = s := by
  cases l
  · simp [scanMonthGames]
  · simp [scanMonthGames, h]

lemma scanMonthGames_append (N M : Nat) (tc : Option String) (pred : Option (Game → Bool)) :
    ∀ (l1 l2 : List Game) (s : ScanState),
      scanMonthGames N M tc pred s (l1 ++ l2)
        = scanMonthGames N M tc pred (scanMonthGames N M tc pred s l1) l2 := by
  intro l1
  induction l1 with
  | nil => intro l2 s; simp [scanMonthGames]
  | cons g gs ih =>
    intro l2 s
    by_cases h : stopCond N M s = true
    · simp [scanMonthGames, h, scanMonthGames_stop N M tc pred s l2 h]
    · simp only [List.cons_append, scanMonthGames, h, Bool.false_eq_true, if_false]
      exact ih l2 (visitGame tc pred s g)

lemma scanMonths_eq_flat (N M : Nat) (tc : Option String) (pred : Option (Game → Bool)) :
    ∀ (ms : List (List Game)) (s : ScanState),
      scanMonths N M tc pred s ms = scanMonthGames N M tc pred s ms.flatten := by
  intro ms
  induction ms with
  | nil => intro s; simp [scanMonths, scanMonthGames]
  | cons gs rest ih =>
    intro s
    by_cases h2 : stopCond N M (scanMonthGames N M tc pred s gs) = true
    · simp [scanMonths, h2, List.flatten_cons, scanMonthGames_append,
        scanMonthGames_stop _ _ _ _ _ _ h2]
    · simp [scanMonths, h2, List.flatten_cons, scanMonthGames_append, ih]

/-- Break-condition extraction for the bounded-count scan: it visits
exactly a prefix of the stream, minimal past the stop condition. -/
lemma scanMonthGames_extract (N M : Nat) (tc : Option String) (pred : Option (Game → Bool)) :
    ∀ (l : List Game) (s : ScanState),
      ∃ k, k ≤ l.length ∧
        scanMonthGames N M tc pred s l = visitAll tc pred s (l.take k) ∧
        (∀ j, j < k → stopCond N M (visitAll tc pred s (l.take j)) = false) ∧
        (k = l.length ∨ stopCond N M (visitAll tc pred s (l.take k)) = true) := by
  intro l
  induction l with
  | nil =>
    intro s
    exact ⟨0, le_refl 0, by simp [scanMonthGames, visitAll], by omega, Or.inl rfl⟩
  | cons g gs ih =>
    intro s
    by_cases h : stopCond N M s = true
    · refine ⟨0, Nat.zero_le _, ?_, by omega, Or.inr ?_⟩
      · simp [scanMonthGames, h, visitAll]
      · simpa [visitAll] using h
    · obtain ⟨k, hk, hscan, hmin, hterm⟩ := ih (visitGame tc pred s g)
      refine ⟨k + 1, by simpa using hk, ?_, ?_, ?_⟩
      · simpa [scanMonthGames, h, List.take_succ_cons, visitAll] using hscan
      · intro j hj
        match j with
        | 0 => simpa [visitAll] using (by simpa using h)
        | j' + 1 =>
          have := hmin j' (by omega)
          simpa [List.take_succ_cons, visitAll] using this
      · rcases hterm with h1 | h2
        · exact Or.inl (by simp [h1])
        · exact Or.inr (by simpa [List.take_succ_cons, visitAll] using h2)

/-! ## List algebra helpers -/

lemma flatten_reverse_map_reverse {α β : Type} (f : α → List β) (l : List α) :
    (l.reverse.map (fun a => (f a).reverse)).flatten = ((l.map f).flatten).reverse := by
  rw [List.reverse_flatten, List.map_map, ← List.map_reverse]
  rfl

lemma not_filteredFlag (pred : Option (Game → Bool)) (g : Game) :
    (!filteredFlag pred g) = predPass pred g := by
  cases pred with
  | none => rfl
  | some f => cases h : f g <;> simp [filteredFlag, predPass, h]

lemma selectUnfiltered_pairs (r : List (Game × Bool)) :
    selectUnfiltered (r.map (·.1)) (r.map (·.2)) = (r.filter (fun q => !q.2)).map (·.1) := by
  have hz : (r.map (·.1)).zip (r.map (·.2)) = r := by
    rw [List.zip_map']
    exact List.map_id r
  simp [selectUnfiltered, hz]

lemma windowScanMonth_reverse (s e : Int) (tc : Option String)
    (pred : Option (Game → Bool)) (gs : List Game) :
    windowScanMonth s e tc pred gs.reverse = (windowScanMonth s e tc pred gs).reverse := by
  simp [windowScanMonth, List.filter_reverse]

lemma windowScanMonth_fst (s e : Int) (tc : Option String)
    (pred : Option (Game → Bool)) (gs : List Game) :
    (windowScanMonth s e tc pred gs).map (·.1)
      = gs.filter (fun g => windowPass s e g && tcPass tc g) := by
  simp only [windowScanMonth, List.map_map]
  exact List.map_id' _

lemma windowScanMonth_unfiltered (s e : Int) (tc : Option String)
    (pred : Option (Game → Bool)) (gs : List Game) :
    ((windowScanMonth s e tc pred gs).filter (fun q => !q.2)).map (·.1)
      = gs.filter (fun g => (windowPass s e g && tcPass tc g) && predPass pred g) := by
  simp only [windowScanMonth, List.filter_map, List.map_map]
  have h1 : ((fun q : Game × Bool => !q.2) ∘ fun g => (g, filteredFlag pred g))
      = fun g => predPass pred g := by
    funext g
    simp [Function.comp, not_filteredFlag]
  have h2 : ((fun q : Game × Bool => q.1) ∘ fun g => (g, filteredFlag pred g))
      = fun g => g := rfl
  rw [h1, h2, List.map_id', List.filter_filter]
  exact List.filter_congr (fun a _ => Bool.and_comm _ _)

/-! ## Month-narrowing lemmas -/

/-- Lexicographic (year, month) order, the order `time.gmtime` respects. -/
def ymLe (a b : Int × Int) : Prop :=
  a.1 < b.1 ∨ (a.1 = b.1 ∧ a.2 ≤ b.2)

/-- The keep-test of `_filterOutArchiveListAfterUnixTimestamp`. -/
def keepUpTo (ym : Int → Int × Int) (ts : Int) (u : String) : Bool :=
  match monthKey u with
  | some (y, m) => decide (y < (ym ts).1 ∨ (y = (ym ts).1 ∧ m ≤ (ym ts).2))
  | none => false

/-- The keep-test of `_filterOutArchiveListBeforeUnixTimestamp`. -/
def keepFrom (ym : Int → Int × Int) (ts : Int) (u : String) : Bool :=
  match monthKey u with
  | some (y, m) => decide (y > (ym ts).1 ∨ (y = (ym ts).1 ∧ m ≥ (ym ts).2))
  | none => false

lemma filterOutAfter_eq (ym : Int → Int × Int) (ts : Int) :
    ∀ (urls : List String), (∀ u ∈ urls, (monthKey u).isSome) →
      filterOutArchiveListAfterUnixTimestamp ym urls ts
        = some (urls.filter (keepUpTo ym ts)) := by
  intro urls
  induction urls with
  | nil => intro _; rfl
  | cons u us ih =>
    intro h
    rcases hk : monthKey u with _ | ⟨y, m⟩
    · exact absurd (h u (by simp)) (by simp [hk])
    · have hrest := ih (fun v hv => h v (by simp [hv]))
      by_cases hc : y < (ym ts).1 ∨ (y = (ym ts).1 ∧ m ≤ (ym ts).2)
      · simp [filterOutArchiveListAfterUnixTimestamp, hk, hrest, hc,
          List.filter_cons, keepUpTo]
      · simp [filterOutArchiveListAfterUnixTimestamp, hk, hrest, hc,
          List.filter_cons, keepUpTo]

lemma filterOutBefore_eq (ym : Int → Int × Int) (ts : Int) :
    ∀ (urls : List String), (∀ u ∈ urls, (monthKey u).isSome) →
      filterOutArchiveListBeforeUnixTimestamp ym urls ts
        = some (urls.filter (keepFrom ym ts)) := by
  intro urls
  induction urls with
  | nil => intro _; rfl
  | cons u us ih =>
    intro h
    rcases hk : monthKey u with _ | ⟨y, m⟩
    · exact absurd (h u (by simp)) (by simp [hk])
    · have hrest := ih (fun v hv => h v (by simp [hv]))
      by_cases hc : y > (ym ts).1 ∨ (y = (ym ts).1 ∧ m ≥ (ym ts).2)
      · simp [filterOutArchiveListBeforeUnixTimestamp, hk, hrest, hc,
          List.filter_cons, keepFrom]
      · simp [filterOutArchiveListBeforeUnixTimestamp, hk, hrest, hc,
          List.filter_cons, keepFrom]

/-- A month dropped by the narrowing holds no game inside the window,
when `ym` is monotone and each game of the month lies in the month of
its URL; the per-game window re-check therefore loses nothing. -/
lemma dropped_month_window (ym : Int → Int × Int) (getGames : String → List Game)
    (s e : Int) (u : String) (y m : Int)
    (hmono : ∀ a b : Int, a ≤ b → ymLe (ym a) (ym b))
    (hk : monthKey u = some (y, m))
    (hmonth : ∀ g ∈ getGames u, ym g.end_time = (y, m))
    (hkeep : (keepFrom ym s u && keepUpTo ym e u) = false) :
    ∀ g ∈ getGames u, windowPass s e g = false := by
  intro g hg
  have hymg := hmonth g hg
  rcases Bool.and_eq_false_iff.mp hkeep with hB | hA
  · -- dropped because the month is before the window's start month
    have h1 : ¬(y > (ym s).1 ∨ (y = (ym s).1 ∧ m ≥ (ym s).2)) := by
      simpa [keepFrom, hk] using hB
    have h2 : g.end_time < s := by
      by_contra hle
      have := hmono s g.end_time (by omega)
      rw [hymg] at this
      rcases this with h | ⟨h, h'⟩
      · exact h1 (Or.inl (by simpa using h))
      · exact h1 (Or.inr ⟨h.symm, by simpa using h'⟩)
    simp [windowPass, h2]
  · -- dropped because the month is after the window's end month
    have h1 : ¬(y < (ym e).1 ∨ (y = (ym e).1 ∧ m ≤ (ym e).2)) := by
      simpa [keepUpTo, hk] using hA
    have h2 : e < g.end_time := by
      by_contra hle
      have := hmono g.end_time e (by omega)
      rw [hymg] at this
      rcases this with h | ⟨h, h'⟩
      · exact h1 (Or.inl (by simpa using h))
      · exact h1 (Or.inr ⟨h, by simpa using h'⟩)
    simp [windowPass, h2]

lemma flatten_map_filter_extend {α β : Type} (p : α → Bool) (f : α → List β) :
    ∀ (l : List α), (∀ a ∈ l, p a = false → f a = []) →
      ((l.filter p).map f).flatten = (l.map f).flatten := by
  intro l
  induction l with
  | nil => intro _; rfl
  | cons a t ih =>
    intro h
    rcases ha : p a
    · simp [List.filter_cons, ha, h a (by simp) ha,
        ih (fun b hb hb' => h b (by simp [hb]) hb')]
    · simp [List.filter_cons, ha,
        ih (fun b hb hb' => h b (by simp [hb]) hb')]

/-- Structural characterization of `get_games_between_timestamps` with
rating correction off: it returns exactly the window-, time-class- and
predicate-passing games of the whole cached archive, in archive order
— provided dropped months hold no game in the window. -/
lemma between_scan_eq (ym : Int → Int × Int) (getGames : String → List Game)
    (player_name : String) (s e : Int) (tc : Option String) (pred : Option (Game → Bool))
    (index : List String)
    (hparse : ∀ u ∈ index, (monthKey u).isSome)
    (hdrop : ∀ u ∈ index, (keepFrom ym s u && keepUpTo ym e u) = false →
        ∀ g ∈ getGames u, windowPass s e g = false) :
    get_games_between_timestamps ym getGames player_name s e tc pred false index
      = some ((archiveGames getGames index).filter
          (fun g => (windowPass s e g && tcPass tc g) && predPass pred g)) := by
  have hparse1 : ∀ u ∈ index.filter (keepUpTo ym e), (monthKey u).isSome :=
    fun u hu => hparse u (List.mem_of_mem_filter hu)
  unfold get_games_between_timestamps
  rw [filterOutAfter_eq ym e index hparse]
  dsimp only
  rw [filterOutBefore_eq ym s _ hparse1]
  dsimp only
  rw [List.filter_filter]
  have hrecent :
      ((((index.filter (fun a => keepFrom ym s a && keepUpTo ym e a)).reverse.map
          (fun u => windowScanMonth s e tc pred (getGames u).reverse)).flatten).reverse)
        = ((index.filter (fun a => keepFrom ym s a && keepUpTo ym e a)).map
            (fun u => windowScanMonth s e tc pred (getGames u))).flatten := by
    simp only [windowScanMonth_reverse]
    rw [flatten_reverse_map_reverse (fun u => windowScanMonth s e tc pred (getGames u))]
    exact List.reverse_reverse _
  have hnil : ∀ u ∈ index, (fun a => keepFrom ym s a && keepUpTo ym e a) u = false →
      (fun u => (getGames u).filter
        (fun g => (windowPass s e g && tcPass tc g) && predPass pred g)) u = [] := by
    intro u hu hk
    simp only [List.filter_eq_nil_iff]
    intro g hg
    have := hdrop u hu hk g hg
    simp [this]
  have hfinish : ∀ pr : Option (Game → Bool),
      ((index.filter (fun a => keepFrom ym s a && keepUpTo ym e a)).map
          (fun u => (getGames u).filter
            (fun g => (windowPass s e g && tcPass tc g) && predPass pr g))).flatten
        = (archiveGames getGames index).filter
            (fun g => (windowPass s e g && tcPass tc g) && predPass pr g) := by
    intro pr
    have hnil' : ∀ u ∈ index, (fun a => keepFrom ym s a && keepUpTo ym e a) u = false →
        (fun u => (getGames u).filter
          (fun g => (windowPass s e g && tcPass tc g) && predPass pr g)) u = [] := by
      intro u hu hk
      simp only [List.filter_eq_nil_iff]
      intro g hg
      have := hdrop u hu hk g hg
      simp [this]
    rw [flatten_map_filter_extend _ _ index hnil']
    rw [show (index.map (fun u => (getGames u).filter
          (fun g => (windowPass s e g && tcPass tc g) && predPass pr g)))
        = ((index.map getGames).map (List.filter
            (fun g => (windowPass s e g && tcPass tc g) && predPass pr g))) by
      rw [List.map_map]
      rfl]
    rw [← List.filter_flatten]
    rfl
  rcases pred with _ | f
  · -- no predicate: the raw chronological games list is returned
    simp only [Bool.false_eq_true, if_false]
    rw [hrecent]
    have hmonths : (((index.filter (fun a => keepFrom ym s a && keepUpTo ym e a)).map
          (fun u => windowScanMonth s e tc none (getGames u))).flatten).map (fun x => x.1)
        = ((index.filter (fun a => keepFrom ym s a && keepUpTo ym e a)).map
            (fun u => (getGames u).filter
              (fun g => (windowPass s e g && tcPass tc g) && predPass none g))).flatten := by
      rw [List.map_flatten, List.map_map]
      refine congrArg List.flatten (List.map_congr_left (fun u _ => ?_))
      rw [Function.comp_apply, windowScanMonth_fst]
      exact List.filter_congr (fun g _ => by simp [predPass])
    rw [hmonths, hfinish none]
  · -- predicate supplied: only the unfiltered entries are returned
    simp only [Bool.false_eq_true, if_false]
    rw [hrecent, selectUnfiltered_pairs]
    have hmonths : ((((index.filter (fun a => keepFrom ym s a && keepUpTo ym e a)).map
          (fun u => windowScanMonth s e tc (some f) (getGames u))).flatten.filter
            (fun q => !q.2)).map (fun x => x.1))
        = ((index.filter (fun a => keepFrom ym s a && keepUpTo ym e a)).map
            (fun u => (getGames u).filter
              (fun g => (windowPass s e g && tcPass tc g) && predPass (some f) g))).flatten := by
      rw [List.filter_flatten, List.map_flatten, List.map_map, List.map_map]
      refine congrArg List.flatten (List.map_congr_left (fun u _ => ?_))
      rw [Function.comp_apply, Function.comp_apply, windowScanMonth_unfiltered]
    rw [hmonths, hfinish (some f)]

/-! ## Bounded-count scanner characterization -/

lemma selectUnfiltered_map_flags (pred : Option (Game → Bool)) :
    ∀ m : List Game,
      selectUnfiltered m (m.map (fun g => filteredFlag pred g)) = m.filter (predPass pred) := by
  intro m
  induction m with
  | nil => rfl
  | cons g t ih =>
    simp only [selectUnfiltered, List.map_cons, List.zip_cons_cons, List.filter_cons] at ih ⊢
    rcases h : filteredFlag pred g
    · have hp : predPass pred g = true := by
        rw [← not_filteredFlag, h]
        rfl
      simpa [hp, h] using ih
    · have hp : predPass pred g = false := by
        rw [← not_filteredFlag, h]
        rfl
      simpa [hp, h] using ih

lemma mapPair_unfiltered (pred : Option (Game → Bool)) (m : List Game) :
    (((m.map (fun g => (g, filteredFlag pred g))).filter (fun q => !q.2)).map (fun x => x.1))
      = m.filter (predPass pred) := by
  rw [List.filter_map, List.map_map]
  have h1 : ((fun q : Game × Bool => !q.2) ∘ fun g => (g, filteredFlag pred g))
      = fun g => predPass pred g := by
    funext g
    simp [Function.comp, not_filteredFlag]
  rw [h1]
  exact List.map_id' _

lemma mostRecent_months_flatten (getGames : String → List Game) (index : List String) :
    (index.reverse.map (fun u => (getGames u).reverse)).flatten
      = (archiveGames getGames index).reverse :=
  flatten_reverse_map_reverse getGames index

lemma mostRecent_state (N M : Nat) (tc : Option String) (pred : Option (Game → Bool))
    (getGames : String → List Game) (index : List String) :
    scanMonths N M tc pred ⟨0, 0, []⟩ (index.reverse.map (fun u => (getGames u).reverse))
      = scanMonthGames N M tc pred ⟨0, 0, []⟩ (archiveGames getGames index).reverse := by
  rw [scanMonths_eq_flat, mostRecent_months_flatten]

/-- With rating correction off, `get_most_recent_games` returns the
time-class- and predicate-passing games of some suffix of the cached
archive, in archive order. -/
lemma mostRecent_eq (getGames : String → List Game) (player_name : String) (N : Nat)
    (tc : Option String) (pred : Option (Game → Bool)) (maxOpt : Option Nat)
    (index : List String) :
    ∃ d, get_most_recent_games getGames player_name N tc pred false maxOpt index
      = some (((archiveGames getGames index).drop d).filter
          (fun g => tcPass tc g && predPass pred g)) := by
  obtain ⟨k, hk, hscan, _, _⟩ :=
    scanMonthGames_extract N (maxOpt.getD (N * 10)) tc pred
      (archiveGames getGames index).reverse ⟨0, 0, []⟩
  refine ⟨(archiveGames getGames index).length - k, ?_⟩
  unfold get_most_recent_games
  dsimp only
  rw [mostRecent_state, hscan, visitAll_acc]
  have hacc : (((archiveGames getGames index).reverse.take k).filter (tcPass tc)).map
        (fun g => (g, filteredFlag pred g))
      = ((((archiveGames getGames index).drop
            ((archiveGames getGames index).length - k)).filter (tcPass tc)).map
          (fun g => (g, filteredFlag pred g))).reverse := by
    rw [List.take_reverse, List.filter_reverse, List.map_reverse]
  rw [hacc]
  simp only [List.nil_append, List.reverse_reverse, Bool.false_eq_true, if_false]
  rcases pred with _ | f
  · rw [List.map_map,
      show ((fun x : Game × Bool => x.1) ∘ fun g => (g, filteredFlag none g))
        = fun a : Game => a from rfl,
      List.map_id']
    refine congrArg some (List.filter_congr (fun g _ => ?_))
    simp [predPass]
  · rw [List.map_map, List.map_map,
      show ((fun x : Game × Bool => x.1) ∘ fun g => (g, filteredFlag (some f) g))
        = fun a : Game => a from rfl,
      show ((fun x : Game × Bool => x.2) ∘ fun g => (g, filteredFlag (some f) g))
        = fun g : Game => filteredFlag (some f) g from rfl,
      List.map_id', selectUnfiltered_map_flags, List.filter_filter]
    refine congrArg some (List.filter_congr (fun g _ => ?_))
    exact Bool.and_comm _ _

/-! ## Rating-reconstruction lemmas -/

/-- The perspective player's reported elo in each game of a list
(`none` as soon as one game has the player on neither side). -/
def playerElosList (player_name : String) : List Game → Option (List Int)
  | [] => some []
  | g :: t =>
    match get_elo g player_name with
    | none => none
    | some (e, _) =>
      match playerElosList player_name t with
      | none => none
      | some es => some (e :: es)

/-- Sum of absolute successive differences of a list of elos. -/
def consecAbsSum : List Int → Nat
  | a :: b :: t => (b - a).natAbs + consecAbsSum (b :: t)
  | _ => 0

lemma get_elo_adjustGame (player_name : String) (g : Game) (prev cur o : Int)
    (h : get_elo g player_name = some (cur, o)) :
    get_elo (adjustGame player_name g prev cur) player_name
      = some (prev, o + (cur - prev)) := by
  by_cases hw : case_insensitive_match g.white.username player_name
  · unfold get_elo at h
    rw [if_pos hw] at h
    have h1 : g.white.rating = cur := congrArg Prod.fst (Option.some.inj h)
    have h2 : g.black.rating = o := congrArg Prod.snd (Option.some.inj h)
    unfold adjustGame get_elo
    rw [if_pos hw]
    simp only [if_pos hw]
    rw [h2]
  · unfold get_elo at h
    rw [if_neg hw] at h
    by_cases hb : case_insensitive_match g.black.username player_name
    · rw [if_pos hb] at h
      have h1 : g.black.rating = cur := congrArg Prod.fst (Option.some.inj h)
      have h2 : g.white.rating = o := congrArg Prod.snd (Option.some.inj h)
      unfold adjustGame get_elo
      rw [if_neg hw]
      simp only [if_neg hw, if_pos hb]
      rw [h2]
    · rw [if_neg hb] at h
      exact absurd h (by simp)

lemma adjustGame_end_time (player_name : String) (g : Game) (prev cur : Int) :
    (adjustGame player_name g prev cur).end_time = g.end_time := by
  unfold adjustGame
  split <;> rfl

lemma adjustGame_sum (player_name : String) (g : Game) (prev cur o : Int)
    (h : get_elo g player_name = some (cur, o)) :
    (adjustGame player_name g prev cur).white.rating
        + (adjustGame player_name g prev cur).black.rating
      = g.white.rating + g.black.rating := by
  by_cases hw : case_insensitive_match g.white.username player_name
  · unfold get_elo at h
    rw [if_pos hw] at h
    have h1 : g.white.rating = cur := congrArg Prod.fst (Option.some.inj h)
    unfold adjustGame
    rw [if_pos hw]
    simp only
    omega
  · unfold get_elo at h
    rw [if_neg hw] at h
    by_cases hb : case_insensitive_match g.black.username player_name
    · rw [if_pos hb] at h
      have h1 : g.black.rating = cur := congrArg Prod.fst (Option.some.inj h)
      unfold adjustGame
      rw [if_neg hw]
      simp only
      omega
    · rw [if_neg hb] at h
      exact absurd h (by simp)

lemma playerEloAt_cons_succ (g : Game) (t : List Game) (i : Nat) (player_name : String) :
    playerEloAt (g :: t) (i + 1) player_name = playerEloAt t i player_name := by
  unfold playerEloAt
  rw [List.getElem?_cons_succ]

lemma playerEloAt_cons_zero (g : Game) (t : List Game) (player_name : String) :
    playerEloAt (g :: t) 0 player_name = (get_elo g player_name).map (·.1) := by
  unfold playerEloAt
  rw [List.getElem?_cons_zero]

/-- Position-wise description of the correction loop: the `i`-th
corrected game is the `i`-th input game adjusted from the player rating
reported in the previous game (or from the seed `prev` at position 0). -/
lemma correctTail_get (player_name : String) :
    ∀ (gs : List Game) (prev : Int) (gs' : List Game) (S : Nat),
      correctTail player_name prev gs = some (gs', S) →
      ∀ i, i < gs.length →
        ∃ g cur o prevE,
          gs[i]? = some g ∧ get_elo g player_name = some (cur, o) ∧
          (if i = 0 then prevE = prev
           else playerEloAt gs (i - 1) player_name = some prevE) ∧
          gs'[i]? = some (adjustGame player_name g prevE cur) := by
  intro gs
  induction gs with
  | nil =>
    intro prev gs' S h i hi
    exact absurd hi (by simp)
  | cons g t ih =>
    intro prev gs' S h i hi
    rcases hge : get_elo g player_name with _ | ⟨cur, o⟩
    · simp only [correctTail, hge] at h
      exact absurd h (by simp)
    · simp only [correctTail, hge] at h
      rcases ht : correctTail player_name cur t with _ | ⟨t', S'⟩
      · rw [ht] at h
        exact absurd h (by simp)
      · rw [ht] at h
        simp only [Option.some.injEq, Prod.mk.injEq] at h
        obtain ⟨hgs', _⟩ := h
        match i with
        | 0 =>
          refine ⟨g, cur, o, prev, by simp, hge, by simp, ?_⟩
          rw [← hgs']
          simp
        | Nat.succ j =>
          obtain ⟨g2, cur2, o2, prevE2, h1, h2, h3, h4⟩ :=
            ih cur t' S' ht j (by simpa using hi)
          refine ⟨g2, cur2, o2, prevE2, by simpa using h1, h2, ?_, ?_⟩
          · simp only [Nat.succ_ne_zero, if_false, Nat.succ_sub_one]
            by_cases hj : j = 0
            · subst hj
              rw [if_pos rfl] at h3
              subst h3
              simp [playerEloAt, hge]
            · obtain ⟨j', rfl⟩ : ∃ j', j = j' + 1 := ⟨j - 1, by omega⟩
              rw [if_neg hj] at h3
              simp only [Nat.add_sub_cancel] at h3
              rw [playerEloAt_cons_succ]
              exact h3
          · rw [← hgs']
            simpa using h4

lemma correctTail_length (player_name : String) :
    ∀ (gs : List Game) (prev : Int) (gs' : List Game) (S : Nat),
      correctTail player_name prev gs = some (gs', S) → gs'.length = gs.length := by
  intro gs
  induction gs with
  | nil =>
    intro prev gs' S h
    simp only [correctTail, Option.some.injEq, Prod.mk.injEq] at h
    rw [← h.1]
  | cons g t ih =>
    intro prev gs' S h
    rcases hge : get_elo g player_name with _ | ⟨cur, o⟩
    · simp only [correctTail, hge] at h
      exact absurd h (by simp)
    · simp only [correctTail, hge] at h
      rcases ht : correctTail player_name cur t with _ | ⟨t', S'⟩
      · rw [ht] at h
        exact absurd h (by simp)
      · rw [ht] at h
        simp only [Option.some.injEq, Prod.mk.injEq] at h
        rw [← h.1]
        simp [ih cur t' S' ht]

lemma correctTail_end_times (player_name : String) :
    ∀ (gs : List Game) (prev : Int) (gs' : List Game) (S : Nat),
      correctTail player_name prev gs = some (gs', S) →
      gs'.map (·.end_time) = gs.map (·.end_time) := by
  intro gs
  induction gs with
  | nil =>
    intro prev gs' S h
    simp only [correctTail, Option.some.injEq, Prod.mk.injEq] at h
    rw [← h.1]
  | cons g t ih =>
    intro prev gs' S h
    rcases hge : get_elo g player_name with _ | ⟨cur, o⟩
    · simp only [correctTail, hge] at h
      exact absurd h (by simp)
    · simp only [correctTail, hge] at h
      rcases ht : correctTail player_name cur t with _ | ⟨t', S'⟩
      · rw [ht] at h
        exact absurd h (by simp)
      · rw [ht] at h
        simp only [Option.some.injEq, Prod.mk.injEq] at h
        rw [← h.1]
        simp [adjustGame_end_time, ih cur t' S' ht]

/-- The loop-accumulated sum of absolute elo changes equals the direct
sum of absolute successive differences of the reported player elos. -/
lemma correctTail_sum (player_name : String) :
    ∀ (gs : List Game) (prev : Int) (gs' : List Game) (S : Nat),
      correctTail player_name prev gs = some (gs', S) →
      ∃ es, playerElosList player_name gs = some es ∧ S = consecAbsSum (prev :: es) := by
  intro gs
  induction gs with
  | nil =>
    intro prev gs' S h
    simp only [correctTail, Option.some.injEq, Prod.mk.injEq] at h
    exact ⟨[], rfl, by rw [← h.2]; rfl⟩
  | cons g t ih =>
    intro prev gs' S h
    rcases hge : get_elo g player_name with _ | ⟨cur, o⟩
    · simp only [correctTail, hge] at h
      exact absurd h (by simp)
    · simp only [correctTail, hge] at h
      rcases ht : correctTail player_name cur t with _ | ⟨t', S'⟩
      · rw [ht] at h
        exact absurd h (by simp)
      · rw [ht] at h
        simp only [Option.some.injEq, Prod.mk.injEq] at h
        obtain ⟨es', hes', hS'⟩ := ih cur t' S' ht
        refine ⟨cur :: es', ?_, ?_⟩
        · simp [playerElosList, hge, hes']
        · rw [← h.2, hS']
          rw [show consecAbsSum (prev :: cur :: es')
            = (cur - prev).natAbs + consecAbsSum (cur :: es') from rfl]
          omega

lemma adjustFirstGame_end_time (player_name : String) (g : Game) (w : Nat) (est : Int) :
    (adjustFirstGame player_name g w est).end_time = g.end_time := by
  unfold adjustFirstGame
  split
  · split <;> rfl
  · split <;> rfl

lemma get_elo_adjustFirstGame (player_name : String) (g : Game) (w : Nat) (est e0 o0 : Int)
    (h : get_elo g player_name = some (e0, o0)) :
    get_elo (adjustFirstGame player_name g w est) player_name
      = some (if w = 1 then e0 - est else e0 + est,
              if w = 1 then o0 + est else o0 - est) := by
  by_cases hw : case_insensitive_match g.white.username player_name
  · unfold get_elo at h
    rw [if_pos hw] at h
    have h1 : g.white.rating = e0 := congrArg Prod.fst (Option.some.inj h)
    have h2 : g.black.rating = o0 := congrArg Prod.snd (Option.some.inj h)
    unfold adjustFirstGame get_elo
    rw [if_pos hw]
    by_cases hw1 : w = 1
    · simp only [hw1, if_true, if_pos hw]
      rw [h1, h2]
    · simp only [hw1, if_false, if_pos hw]
      rw [h1, h2]
  · unfold get_elo at h
    rw [if_neg hw] at h
    by_cases hb : case_insensitive_match g.black.username player_name
    · rw [if_pos hb] at h
      have h1 : g.black.rating = e0 := congrArg Prod.fst (Option.some.inj h)
      have h2 : g.white.rating = o0 := congrArg Prod.snd (Option.some.inj h)
      unfold adjustFirstGame get_elo
      rw [if_neg hw]
      by_cases hw1 : w = 1
      · simp only [hw1, if_true, if_neg hw, if_pos hb]
        rw [h1, h2]
      · simp only [hw1, if_false, if_neg hw, if_pos hb]
        rw [h1, h2]
    · rw [if_neg hb] at h
      exact absurd h (by simp)

/-- Unfolding of `correct_archive_elo` on a list of length at least 2. -/
lemma correct_archive_elo_cons2 (player_name : String) (g0 g1 : Game) (rest c : List Game)
    (h : correct_archive_elo (g0 :: g1 :: rest) player_name = some c) :
    ∃ e0 o0 rest' S won,
      get_elo g0 player_name = some (e0, o0) ∧
      correctTail player_name e0 (g1 :: rest) = some (rest', S) ∧
      get_won g0 player_name = some won ∧
      c = (match won with
           | none => g0
           | some w => adjustFirstGame player_name g0 w
               ((roundHalfEvenDiv S (g1 :: rest).length : Nat) : Int)) :: rest' := by
  rcases hge : get_elo g0 player_name with _ | ⟨e0, o0⟩
  · simp only [correct_archive_elo, hge] at h
    exact absurd h (by simp)
  · simp only [correct_archive_elo, hge] at h
    rcases ht : correctTail player_name e0 (g1 :: rest) with _ | ⟨rest', S⟩
    · simp only [ht] at h
      exact absurd h (by simp)
    · simp only [ht] at h
      rcases hwon : get_won g0 player_name with _ | won
      · simp only [hwon] at h
        exact absurd h (by simp)
      · simp only [hwon] at h
        rcases won with _ | w
        · simp only [Option.some.injEq] at h
          exact ⟨e0, o0, rest', S, none, rfl, ht, rfl, h.symm⟩
        · simp only [Option.some.injEq] at h
          exact ⟨e0, o0, rest', S, some w, rfl, ht, rfl, h.symm⟩

/-! ## Bridging lemmas for the claim theorems -/

/-- Strict lexicographic (year, month) order. -/
def ymLt (a b : Int × Int) : Prop :=
  a.1 < b.1 ∨ (a.1 = b.1 ∧ a.2 < b.2)

lemma windowPass_eq (s e : Int) (g : Game) :
    windowPass s e g = decide (s ≤ g.end_time ∧ g.end_time ≤ e) := by
  by_cases h1 : g.end_time > e
  · simp only [windowPass, h1]
    simp
    omega
  · by_cases h2 : g.end_time < s
    · simp only [windowPass, h1, h2]
      simp
      omega
    · simp only [windowPass, h1, h2]
      simp
      omega

lemma filter_drop_suffix {α : Type} (p : α → Bool) (l : List α) (d : Nat) :
    (l.drop d).filter p <:+ l.filter p := by
  refine ⟨(l.take d).filter p, ?_⟩
  rw [← List.filter_append, List.take_append_drop]

lemma selectUnfiltered_sublist : ∀ (gs : List Game) (flags : List Bool),
    (selectUnfiltered gs flags).Sublist gs := by
  intro gs
  induction gs with
  | nil => intro flags; simp [selectUnfiltered]
  | cons g t ih =>
    intro flags
    rcases flags with _ | ⟨b, bs⟩
    · simp [selectUnfiltered]
    · simp only [selectUnfiltered, List.zip_cons_cons, List.filter_cons]
      rcases b
      · simpa using List.Sublist.cons₂ g (ih bs)
      · simpa using List.Sublist.cons g (ih bs)

lemma correct_archive_elo_end_times (games : List Game) (player_name : String)
    (c : List Game) (h : correct_archive_elo games player_name = some c) :
    c.map (·.end_time) = games.map (·.end_time) := by
  rcases games with _ | ⟨g0, games1⟩
  · simp only [correct_archive_elo, Option.some.injEq] at h
    rw [← h]
  rcases games1 with _ | ⟨g1, rest⟩
  · simp only [correct_archive_elo, Option.some.injEq] at h
    rw [← h]
  obtain ⟨e0, o0, rest', S, won, hge, ht, hwon, hc⟩ :=
    correct_archive_elo_cons2 player_name g0 g1 rest c h
  subst hc
  have htail := correctTail_end_times player_name (g1 :: rest) e0 rest' S ht
  rcases won with _ | w
  · simpa using htail
  · simpa [adjustFirstGame_end_time] using htail

lemma pairwise_le_of_end_times_eq (l1 l2 : List Game)
    (h : l1.map (·.end_time) = l2.map (·.end_time))
    (hs : l2.Pairwise (fun a b => a.end_time ≤ b.end_time)) :
    l1.Pairwise (fun a b => a.end_time ≤ b.end_time) := by
  have h1 := (List.pairwise_map (l := l2)).mpr hs
  rw [← h] at h1
  exact (List.pairwise_map (l := l1)).mp h1

/-- `get_games_between_timestamps` returns the filtered archive whenever
`ym` is monotone and each cached game lies in its URL's month. -/
lemma between_eq_of_monotone (ym : Int → Int × Int) (getGames : String → List Game)
    (player_name : String) (s e : Int) (tc : Option String) (pred : Option (Game → Bool))
    (index : List String)
    (hparse : ∀ u ∈ index, (monthKey u).isSome)
    (hmono : ∀ a b : Int, a ≤ b → ymLe (ym a) (ym b))
    (hmonth : ∀ u ∈ index, ∀ y m, monthKey u = some (y, m) →
        ∀ g ∈ getGames u, ym g.end_time = (y, m)) :
    get_games_between_timestamps ym getGames player_name s e tc pred false index
      = some ((archiveGames getGames index).filter
          (fun g => (windowPass s e g && tcPass tc g) && predPass pred g)) := by
  refine between_scan_eq ym getGames player_name s e tc pred index hparse ?_
  intro u hu hk
  obtain ⟨⟨y, m⟩, hky⟩ := Option.isSome_iff_exists.mp (hparse u hu)
  exact dropped_month_window ym getGames s e u y m hmono hky (hmonth u hu y m hky) hk

/-- The result of `get_most_recent_games` for any correction/predicate
arguments, as a function of the time-class-passing games of some suffix
of the cached archive. -/
lemma mostRecent_shape (getGames : String → List Game) (player_name : String) (N : Nat)
    (tc : Option String) (pred : Option (Game → Bool)) (correct_elo : Bool)
    (maxOpt : Option Nat) (index : List String) :
    ∃ d, get_most_recent_games getGames player_name N tc pred correct_elo maxOpt index
      = match (if correct_elo then
                correct_archive_elo
                  (((archiveGames getGames index).drop d).filter (tcPass tc)) player_name
               else some (((archiveGames getGames index).drop d).filter (tcPass tc))) with
         | none => none
         | some fin => some (match pred with
             | none => fin
             | some _ => selectUnfiltered fin
                 ((((archiveGames getGames index).drop d).filter (tcPass tc)).map
                   (fun g => filteredFlag pred g))) := by
  obtain ⟨k, hk, hscan, _, _⟩ :=
    scanMonthGames_extract N (maxOpt.getD (N * 10)) tc pred
      (archiveGames getGames index).reverse ⟨0, 0, []⟩
  refine ⟨(archiveGames getGames index).length - k, ?_⟩
  unfold get_most_recent_games
  dsimp only
  rw [mostRecent_state, hscan, visitAll_acc]
  have hacc : (((archiveGames getGames index).reverse.take k).filter (tcPass tc)).map
        (fun g => (g, filteredFlag pred g))
      = ((((archiveGames getGames index).drop
            ((archiveGames getGames index).length - k)).filter (tcPass tc)).map
          (fun g => (g, filteredFlag pred g))).reverse := by
    rw [List.take_reverse, List.filter_reverse, List.map_reverse]
  rw [hacc]
  simp only [List.nil_append, List.reverse_reverse]
  rw [List.map_map, List.map_map,
    show ((fun x : Game × Bool => x.1) ∘ fun g => (g, filteredFlag pred g))
      = fun a : Game => a from rfl,
    show ((fun x : Game × Bool => x.2) ∘ fun g => (g, filteredFlag pred g))
      = fun g : Game => filteredFlag pred g from rfl,
    List.map_id']

/-! ## Spec-side derived quantities -/

/-- The rounded mean absolute elo change over a reported elo sequence of
`n` games (the first-game correction estimate of the spec). -/
def eloChangeEstimate (es : List Int) (n : Nat) : Int :=
  (roundHalfEvenDiv (consecAbsSum es) (n - 1) : Nat)

/-- The player-minus-opponent rating difference in the `i`-th game. -/
def eloDiffAt (l : List Game) (i : Nat) (player_name : String) : Option Int :=
  match l[i]? with
  | none => none
  | some g => (get_elo g player_name).map (fun q => q.1 - q.2)

lemma playerElosList_cons_some (p : String) (g : Game) (t : List Game) (e o : Int)
    (es2 : List Int) (h1 : get_elo g p = some (e, o))
    (h2 : playerElosList p t = some es2) :
    playerElosList p (g :: t) = some (e :: es2) := by
  simp only [playerElosList, h1, h2]

/-! ## Concrete instances used by witnesses and counterexamples -/

/-- Two consecutive games of player "a" (post-game ratings 1000 then
1010, both won). -/
def wG1 : Game :=
  { end_time := 1, time_class := "rapid",
    white := ⟨"a", 1000, "win"⟩, black := ⟨"b", 990, "checkmated"⟩,
    rated := some true, accuracies := none, rules := some "chess" }

def wG2 : Game :=
  { end_time := 2, time_class := "rapid",
    white := ⟨"a", 1010, "win"⟩, black := ⟨"c", 980, "resigned"⟩,
    rated := some true, accuracies := none, rules := some "chess" }

def demoTwo : List Game := [wG1, wG2]

/-- A rapid game for player "alice" at time `t` with white rating `r`. -/
def mkG (t : Int) (r : Int) : Game :=
  { end_time := t, time_class := "rapid",
    white := ⟨"alice", r, "win"⟩, black := ⟨"bob", 1000, "checkmated"⟩,
    rated := some true, accuracies := none, rules := some "chess" }

def janURL : String := "https://api.chess.com/pub/player/alice/games/2024/01"

def febURL : String := "https://api.chess.com/pub/player/alice/games/2024/02"

/-- A cached two-month archive for player "alice". -/
def demoGetGames : String → List Game := fun u =>
  if u == janURL then [mkG 100 1000, mkG 200 1010, mkG 300 1020]
  else if u == febURL then [mkG 400 1030, mkG 500 1040]
  else []

/-- A constant (year, month) function: every demo timestamp falls in
January 2024. -/
def ymJan : Int → Int × Int := fun _ => (2024, 1)

/-- A one-month, three-game archive of player "a" with non-uniform elo
changes (+8 then +16), used for the C3 suffix analysis. -/
def cURL : String := "https://api.chess.com/pub/player/a/games/0000/00"

def cG1 : Game :=
  { end_time := 1, time_class := "rapid",
    white := ⟨"a", 1000, "win"⟩, black := ⟨"b", 1000, "checkmated"⟩,
    rated := some true, accuracies := none, rules := some "chess" }

def cG2 : Game :=
  { end_time := 2, time_class := "rapid",
    white := ⟨"a", 1008, "win"⟩, black := ⟨"b", 1000, "checkmated"⟩,
    rated := some true, accuracies := none, rules := some "chess" }

def cG3 : Game :=
  { end_time := 3, time_class := "rapid",
    white := ⟨"a", 1024, "win"⟩, black := ⟨"b", 1000, "checkmated"⟩,
    rated := some true, accuracies := none, rules := some "chess" }

def cGet : String → List Game := fun _ => [cG1, cG2, cG3]

def ymZero : Int → Int × Int := fun _ => (0, 0)

/-! ## Claim theorems: rating reconstruction -/

/-- C1: after the Rating Reconstructor runs, for every index `i ≥ 2`
(1-based; 0-based `i ≥ 1`), the player's side's rating in game `i`
equals the player's rating as reported by the remote source in game
`i-1`, exactly. -/
theorem c1_rating_carryover (games : List Game) (player_name : String) (c : List Game)
    (h : correct_archive_elo games player_name = some c)
    (i : Nat) (h1 : 1 ≤ i) (h2 : i < games.length) :
    playerEloAt c i player_name = playerEloAt games (i - 1) player_name
      ∧ (playerEloAt c i player_name).isSome := by
  rcases games with _ | ⟨g0, games1⟩
  · simp at h2
  rcases games1 with _ | ⟨g1, rest⟩
  · simp at h2
    omega
  obtain ⟨e0, o0, rest', S, won, hge, ht, hwon, hc⟩ :=
    correct_archive_elo_cons2 player_name g0 g1 rest c h
  obtain ⟨j, rfl⟩ : ∃ j, i = j + 1 := ⟨i - 1, by omega⟩
  have hj : j < (g1 :: rest).length := by
    simp only [List.length_cons] at h2 ⊢
    omega
  obtain ⟨g, cur, o, prevE, hg1, hg2, hg3, hg4⟩ :=
    correctTail_get player_name (g1 :: rest) e0 rest' S ht j hj
  have hL : playerEloAt c (j + 1) player_name = some prevE := by
    rw [hc, playerEloAt_cons_succ]
    simp [playerEloAt, hg4, get_elo_adjustGame player_name g prevE cur o hg2]
  refine ⟨?_, by rw [hL]; rfl⟩
  rw [hL]
  simp only [Nat.add_sub_cancel]
  by_cases hj0 : j = 0
  · subst hj0
    rw [if_pos rfl] at hg3
    subst hg3
    rw [playerEloAt_cons_zero, hge]
    rfl
  · obtain ⟨j', rfl⟩ : ∃ j', j = j' + 1 := ⟨j - 1, by omega⟩
    rw [if_neg hj0] at hg3
    simp only [Nat.add_sub_cancel] at hg3
    rw [playerEloAt_cons_succ]
    exact hg3.symm

/-- Witness for C1 at a concrete two-game history. -/
theorem c1_rating_carryover_witness :
    playerEloAt ((correct_archive_elo demoTwo "a").getD []) 1 "a"
        = playerEloAt demoTwo 0 "a"
      ∧ (playerEloAt ((correct_archive_elo demoTwo "a").getD []) 1 "a").isSome :=
  c1_rating_carryover demoTwo "a" ((correct_archive_elo demoTwo "a").getD [])
    (by decide) 1 (by decide) (by decide)

/-- C7: the Rating Reconstructor leaves a list of fewer than 2 games
unchanged; on a list of 2 or more games it corrects the first game by
the rounded mean absolute elo change in the direction implied by the
result (won: subtract from the player's side, add to the opponent's;
lost: the reverse), and leaves the first game uncorrected on a draw. -/
theorem c7_first_game_heuristic (games : List Game) (player_name : String) :
    (games.length < 2 → correct_archive_elo games player_name = some games)
    ∧ (∀ cg g0 e0 o0 es,
        2 ≤ games.length →
        correct_archive_elo games player_name = some cg →
        games[0]? = some g0 →
        get_elo g0 player_name = some (e0, o0) →
        playerElosList player_name games = some es →
        ((get_won g0 player_name = some none → cg[0]? = some g0)
         ∧ (∀ w : Nat, get_won g0 player_name = some (some w) →
             ((cg[0]?).bind (fun c0 => get_elo c0 player_name))
               = some (if w = 1 then e0 - eloChangeEstimate es games.length
                       else e0 + eloChangeEstimate es games.length,
                       if w = 1 then o0 + eloChangeEstimate es games.length
                       else o0 - eloChangeEstimate es games.length)))) := by
  constructor
  · intro hlen
    rcases games with _ | ⟨g0, _ | ⟨g1, rest⟩⟩
    · rfl
    · rfl
    · simp at hlen
      omega
  · intro cg g0 e0 o0 es hlen hc hg0 hge hes
    rcases games with _ | ⟨q0, _ | ⟨q1, qrest⟩⟩
    · simp at hg0
    · simp at hlen
    · have hg0' : g0 = q0 := by
        simp only [List.getElem?_cons_zero, Option.some.injEq] at hg0
        exact hg0.symm
      subst hg0'
      obtain ⟨e0', o0', rest', S, won, hge', ht, hwon, hcq⟩ :=
        correct_archive_elo_cons2 player_name g0 q1 qrest cg hc
      obtain ⟨es', hes', hS⟩ := correctTail_sum player_name (q1 :: qrest) e0' rest' S ht
      have hfull : playerElosList player_name (g0 :: q1 :: qrest) = some (e0' :: es') :=
        playerElosList_cons_some player_name g0 (q1 :: qrest) e0' o0' es' hge' hes'
      have hesv : es = e0' :: es' := Option.some.inj (hes.symm.trans hfull)
      have hest : ((roundHalfEvenDiv S (q1 :: qrest).length : Nat) : Int)
          = eloChangeEstimate es (g0 :: q1 :: qrest).length := by
        unfold eloChangeEstimate
        rw [hesv, ← hS]
        simp [List.length_cons]
      constructor
      · intro hdraw
        rw [hwon] at hdraw
        have hwn : won = none := Option.some.inj hdraw
        subst hwn
        rw [hcq, List.getElem?_cons_zero]
      · intro w hw
        rw [hwon] at hw
        have hwn : won = some w := Option.some.inj hw
        subst hwn
        rw [hcq, List.getElem?_cons_zero]
        show (some (adjustFirstGame player_name g0 w
            ((roundHalfEvenDiv S (q1 :: qrest).length : Nat) : Int))).bind
            (fun c0 => get_elo c0 player_name) = _
        rw [Option.some_bind, get_elo_adjustFirstGame player_name g0 w _ e0 o0 hge, hest]

/-- Witness for C7 at a concrete two-game history: the first game was
won, so the estimate (10) is subtracted from the player's side and
added to the opponent's. -/
theorem c7_first_game_heuristic_witness :
    (((correct_archive_elo demoTwo "a").getD [])[0]?.bind (fun c0 => get_elo c0 "a"))
      = some ((990 : Int), (1000 : Int)) := by
  have h := (((c7_first_game_heuristic demoTwo "a").2
      ((correct_archive_elo demoTwo "a").getD []) wG1 1000 990 [1000, 1010]
      (by decide) (by decide) (by decide) (by decide) (by decide)).2 1 (by decide))
  exact h.trans (by decide)

/-- C8 fails as stated: the corrected rating difference in game 2 of a
concrete two-game history (10) is not the reported post-game difference
(30). -/
theorem c8_counterexample :
    (eloDiffAt ((correct_archive_elo demoTwo "a").getD []) 1 "a").isSome = true
    ∧ eloDiffAt ((correct_archive_elo demoTwo "a").getD []) 1 "a"
        ≠ eloDiffAt demoTwo 1 "a" := by
  decide

/-- C8 amended: for every corrected game `i ≥ 2` (0-based `i ≥ 1`), the
opponent side's rating is adjusted by adding the player's `eloChange`,
which preserves the SUM of the two sides' ratings (not the difference):
after correction, white rating + black rating in game `i` equals the
reported post-game sum. -/
theorem c8_sum_preserved (games : List Game) (player_name : String) (cg : List Game)
    (h : correct_archive_elo games player_name = some cg)
    (i : Nat) (h1 : 1 ≤ i) (h2 : i < games.length) :
    ∃ g ci cur o prevE,
      games[i]? = some g ∧ cg[i]? = some ci ∧
      get_elo g player_name = some (cur, o) ∧
      playerEloAt games (i - 1) player_name = some prevE ∧
      get_elo ci player_name = some (prevE, o + (cur - prevE)) ∧
      ci.white.rating + ci.black.rating = g.white.rating + g.black.rating := by
  rcases games with _ | ⟨g0, games1⟩
  · simp at h2
  rcases games1 with _ | ⟨g1, rest⟩
  · simp at h2
    omega
  obtain ⟨e0, o0, rest', S, won, hge, ht, hwon, hc⟩ :=
    correct_archive_elo_cons2 player_name g0 g1 rest cg h
  obtain ⟨j, rfl⟩ : ∃ j, i = j + 1 := ⟨i - 1, by omega⟩
  have hj : j < (g1 :: rest).length := by
    simp only [List.length_cons] at h2 ⊢
    omega
  obtain ⟨g, cur, o, prevE, hg1, hg2, hg3, hg4⟩ :=
    correctTail_get player_name (g1 :: rest) e0 rest' S ht j hj
  have hprev : playerEloAt (g0 :: g1 :: rest) (j + 1 - 1) player_name = some prevE := by
    simp only [Nat.add_sub_cancel]
    by_cases hj0 : j = 0
    · subst hj0
      rw [if_pos rfl] at hg3
      subst hg3
      rw [playerEloAt_cons_zero, hge]
      rfl
    · obtain ⟨j', rfl⟩ : ∃ j', j = j' + 1 := ⟨j - 1, by omega⟩
      rw [if_neg hj0] at hg3
      simp only [Nat.add_sub_cancel] at hg3
      rw [playerEloAt_cons_succ]
      exact hg3
  refine ⟨g, adjustGame player_name g prevE cur, cur, o, prevE, ?_, ?_, hg2, hprev, ?_, ?_⟩
  · rw [List.getElem?_cons_succ]
    exact hg1
  · rw [hc, List.getElem?_cons_succ]
    exact hg4
  · exact get_elo_adjustGame player_name g prevE cur o hg2
  · exact adjustGame_sum player_name g prevE cur o hg2

/-- Witness for C8 amended: the rating sum of game 2 is preserved in
the concrete two-game history. -/
theorem c8_sum_preserved_witness :
    ((correct_archive_elo demoTwo "a").getD [])[1]?.map
        (fun ci => ci.white.rating + ci.black.rating)
      = demoTwo[1]?.map (fun g => g.white.rating + g.black.rating) := by
  obtain ⟨g, ci, cur, o, prevE, hgame, hci, _, _, _, hsum⟩ :=
    c8_sum_preserved demoTwo "a" ((correct_archive_elo demoTwo "a").getD [])
      (by decide) 1 (by decide) (by decide)
  rw [hgame, hci]
  simpa using hsum

/-! ## Claim theorems: the two scanners -/

/-- C2: with the months cached, `get_games_between_timestamps` returns
exactly the games of the player's archive whose `end_time` lies in
`[s, e]` (inclusive both ends), that match the requested time class and
pass the predicate when one is supplied — sound, complete (no count
cap, boundary months narrowed inclusively), and in archive order. -/
theorem c2_window_exactness (ym : Int → Int × Int) (getGames : String → List Game)
    (player_name : String) (s e : Int) (tc : Option String)
    (pred : Option (Game → Bool)) (index : List String)
    (_hse : s ≤ e)
    (hparse : ∀ u ∈ index, (monthKey u).isSome)
    (hmono : ∀ a b : Int, a ≤ b → ymLe (ym a) (ym b))
    (hmonth : ∀ u ∈ index, ∀ y m, monthKey u = some (y, m) →
        ∀ g ∈ getGames u, ym g.end_time = (y, m)) :
    get_games_between_timestamps ym getGames player_name s e tc pred false index
      = some ((archiveGames getGames index).filter
          (fun g => (decide (s ≤ g.end_time ∧ g.end_time ≤ e) && tcPass tc g)
            && predPass pred g)) := by
  rw [between_eq_of_monotone ym getGames player_name s e tc pred index hparse hmono hmonth]
  refine congrArg some (List.filter_congr (fun g _ => ?_))
  rw [windowPass_eq]

/-- Witness for C2 on the concrete January cache. -/
theorem c2_window_exactness_witness :
    get_games_between_timestamps ymJan demoGetGames "alice" 150 450 (some "rapid")
        none false [janURL]
      = some ((archiveGames demoGetGames [janURL]).filter
          (fun g => (decide ((150 : Int) ≤ g.end_time ∧ g.end_time ≤ 450)
            && tcPass (some "rapid") g) && predPass none g)) := by
  refine c2_window_exactness ymJan demoGetGames "alice" 150 450 (some "rapid") none
    [janURL] (by decide) (by decide) ?_ ?_
  · intro a b hab
    exact Or.inr ⟨rfl, le_refl _⟩
  · intro u hu y m hk g hg
    have hu' : u = janURL := by simpa using hu
    subst hu'
    rw [show monthKey janURL = some ((2024 : Int), (1 : Int)) from by decide] at hk
    rw [← Option.some.inj hk]
    rfl

lemma ymLt_ymLe_absurd (a b : Int × Int) (h1 : ymLt a b) (h2 : ymLe b a) : False := by
  rcases a with ⟨a1, a2⟩
  rcases b with ⟨b1, b2⟩
  rcases h1 with h1 | ⟨h1, h1'⟩
  · rcases h2 with h2 | ⟨h2, h2'⟩
    · simp at h1 h2
      omega
    · simp at h1 h2 h2'
      omega
  · rcases h2 with h2 | ⟨h2, h2'⟩
    · simp at h1 h1' h2
      omega
    · simp at h1 h1' h2 h2'
      omega

/-- C3 fails as stated: with rating correction left on in both calls
(the remaining arguments equal, as the claim's ellipsis requires), the
bounded-count result is not a suffix of the window result, because the
two calls re-estimate the ratings of their own first game. Both calls
succeed on this three-game archive, yet no suffix relation holds. -/
theorem c3_counterexample :
    (get_most_recent_games cGet "a" 2 (some "rapid") none true none [cURL]).isSome = true
    ∧ (get_games_between_timestamps ymZero cGet "a" (-1000) 1000 (some "rapid")
        none true [cURL]).isSome = true
    ∧ ¬((get_most_recent_games cGet "a" 2 (some "rapid") none true none [cURL]).getD []
        <:+ (get_games_between_timestamps ymZero cGet "a" (-1000) 1000 (some "rapid")
              none true [cURL]).getD []) := by
  decide

/-- C3 amended: with sorted cached months and a monotone `ym`, the
bounded-count scanner's result is in non-decreasing `end_time` order
for EVERY correction setting, and with rating correction disabled in
both calls it is a suffix of the window scanner's result over the whole
history (same predicate and time-class arguments). -/
theorem c3_order_suffix_amended (ym : Int → Int × Int) (getGames : String → List Game)
    (player_name : String) (N : Nat) (tc : Option String) (pred : Option (Game → Bool))
    (maxOpt : Option Nat) (index : List String) (s e : Int)
    (hparse : ∀ u ∈ index, (monthKey u).isSome)
    (hmono : ∀ a b : Int, a ≤ b → ymLe (ym a) (ym b))
    (hmonth : ∀ u ∈ index, ∀ y m, monthKey u = some (y, m) →
        ∀ g ∈ getGames u, ym g.end_time = (y, m))
    (hidx : index.Pairwise (fun u v => ∀ ku kv, monthKey u = some ku →
        monthKey v = some kv → ymLt ku kv))
    (hsortm : ∀ u ∈ index, (getGames u).Pairwise (fun a b => a.end_time ≤ b.end_time))
    (hwindow : ∀ g ∈ archiveGames getGames index, s ≤ g.end_time ∧ g.end_time ≤ e) :
    (∃ l1 l2,
      get_games_between_timestamps ym getGames player_name s e tc pred false index
          = some l1
      ∧ get_most_recent_games getGames player_name N tc pred false maxOpt index = some l2
      ∧ l2 <:+ l1
      ∧ l2.Pairwise (fun a b => a.end_time ≤ b.end_time))
    ∧ (∀ correct_elo maxO l3,
        get_most_recent_games getGames player_name N tc pred correct_elo maxO index
            = some l3 →
        l3.Pairwise (fun a b => a.end_time ≤ b.end_time)) := by
  have hLsort : (archiveGames getGames index).Pairwise
      (fun a b => a.end_time ≤ b.end_time) := by
    rw [archiveGames, List.pairwise_flatten]
    constructor
    · intro l hl
      obtain ⟨u, hu, rfl⟩ := List.mem_map.mp hl
      exact hsortm u hu
    · rw [List.pairwise_map]
      refine hidx.imp_of_mem ?_
      intro u v hu hv huv x hx y hy
      obtain ⟨⟨yu, mu⟩, hku⟩ := Option.isSome_iff_exists.mp (hparse u hu)
      obtain ⟨⟨yv, mv⟩, hkv⟩ := Option.isSome_iff_exists.mp (hparse v hv)
      have h1 : ym x.end_time = (yu, mu) := hmonth u hu yu mu hku x hx
      have h2 : ym y.end_time = (yv, mv) := hmonth v hv yv mv hkv y hy
      have hlt : ymLt (yu, mu) (yv, mv) := huv _ _ hku hkv
      by_contra hle
      have hyx : y.end_time ≤ x.end_time := by omega
      have := hmono y.end_time x.end_time hyx
      rw [h1, h2] at this
      exact ymLt_ymLe_absurd _ _ hlt this
  constructor
  · have hbetween := between_eq_of_monotone ym getGames player_name s e tc pred index
      hparse hmono hmonth
    have hl1 : (archiveGames getGames index).filter
          (fun g => (windowPass s e g && tcPass tc g) && predPass pred g)
        = (archiveGames getGames index).filter
            (fun g => tcPass tc g && predPass pred g) := by
      refine List.filter_congr (fun g hg => ?_)
      have hw : windowPass s e g = true := by
        rw [windowPass_eq]
        exact decide_eq_true (hwindow g hg)
      rw [hw]
      simp
    obtain ⟨d, hmr⟩ := mostRecent_eq getGames player_name N tc pred maxOpt index
    refine ⟨_, _, hbetween, hmr, ?_, ?_⟩
    · rw [hl1]
      exact filter_drop_suffix _ _ d
    · refine List.Pairwise.sublist ?_ hLsort
      exact (List.filter_sublist _).trans (List.drop_sublist _ _)
  · intro correct_elo maxO l3 h3
    obtain ⟨d, heq⟩ := mostRecent_shape getGames player_name N tc pred correct_elo
      maxO index
    rw [heq] at h3
    have hXsort : (((archiveGames getGames index).drop d).filter (tcPass tc)).Pairwise
        (fun a b => a.end_time ≤ b.end_time) :=
      List.Pairwise.sublist ((List.filter_sublist _).trans (List.drop_sublist _ _)) hLsort
    rcases hce : (if correct_elo then
        correct_archive_elo (((archiveGames getGames index).drop d).filter (tcPass tc))
          player_name
        else some (((archiveGames getGames index).drop d).filter (tcPass tc)))
      with _ | fin
    · rw [hce] at h3
      exact absurd h3 (by simp)
    · rw [hce] at h3
      have hfin_et : fin.map (·.end_time)
          = (((archiveGames getGames index).drop d).filter (tcPass tc)).map
              (·.end_time) := by
        rcases correct_elo
        · rw [if_neg (by simp)] at hce
          rw [← Option.some.inj hce]
        · rw [if_pos rfl] at hce
          exact correct_archive_elo_end_times _ player_name fin hce
      have hfin_sorted := pairwise_le_of_end_times_eq fin _ hfin_et hXsort
      rcases pred with _ | f
      · have hl3 : l3 = fin := (Option.some.inj h3).symm
        rw [hl3]
        exact hfin_sorted
      · have hl3 : l3 = selectUnfiltered fin
            ((((archiveGames getGames index).drop d).filter (tcPass tc)).map
              (fun g => filteredFlag (some f) g)) := (Option.some.inj h3).symm
        rw [hl3]
        exact List.Pairwise.sublist (selectUnfiltered_sublist _ _) hfin_sorted

/-- Witness for C3 amended on the concrete three-game archive with
rating correction off. -/
theorem c3_order_suffix_amended_witness :
    ((get_most_recent_games cGet "a" 2 (some "rapid") none false none [cURL]).getD []
      <:+ (get_games_between_timestamps ymZero cGet "a" (-1000) 1000 (some "rapid")
            none false [cURL]).getD [])
    ∧ ((get_most_recent_games cGet "a" 2 (some "rapid") none false none
          [cURL]).getD []).Pairwise (fun a b => a.end_time ≤ b.end_time) := by
  obtain ⟨⟨l1, l2, h1, h2, h3, h4⟩, _⟩ :=
    c3_order_suffix_amended ymZero cGet "a" 2 (some "rapid") none none [cURL]
      (-1000) 1000 (by decide)
      (fun a b hab => Or.inr ⟨rfl, le_refl _⟩)
      (by
        intro u hu y m hk g hg
        have hu' : u = cURL := by simpa using hu
        subst hu'
        rw [show monthKey cURL = some ((0 : Int), (0 : Int)) from by decide] at hk
        rw [← Option.some.inj hk]
        rfl)
      (by simp)
      (by decide)
      (by
        intro g hg
        have hmem : g ∈ [cG1, cG2, cG3] := by simpa [archiveGames, cGet] using hg
        simp only [List.mem_cons, List.not_mem_nil, or_false] at hmem
        rcases hmem with rfl | rfl | rfl
        · decide
        · decide
        · decide)
  rw [h1, h2]
  exact ⟨h3, h4⟩

lemma visitAll_take_searched (tc : Option String) (pred : Option (Game → Bool))
    (R : List Game) (j : Nat) (hj : j ≤ R.length) :
    (visitAll tc pred ⟨0, 0, []⟩ (R.take j)).searched = j := by
  rw [visitAll_searched]
  simp only [List.length_take]
  omega

/-- C4: in bounded-count mode, the scan visits exactly a prefix of the
newest-first stream; every visited game increments the scanned counter
before the time-class check (the counter equals the prefix length while
the buffer records only the time-class-passing games); the scan stops
as soon as `count` unfiltered games are collected or the counter
reaches `maxScanned`; and a missing `maxScanned` defaults to
`count * 10`. -/
theorem c4_scan_counters (getGames : String → List Game) (player_name : String)
    (num_games : Nat) (tc : Option String) (pred : Option (Game → Bool))
    (correct_elo : Bool) (max_searched_opt : Option Nat) (index : List String) :
    get_most_recent_games getGames player_name num_games tc pred correct_elo none index
      = get_most_recent_games getGames player_name num_games tc pred correct_elo
          (some (num_games * 10)) index
    ∧ ∃ k, k ≤ (archiveGames getGames index).reverse.length
        ∧ scanMonths num_games (max_searched_opt.getD (num_games * 10)) tc pred
            ⟨0, 0, []⟩ (index.reverse.map (fun u => (getGames u).reverse))
          = visitAll tc pred ⟨0, 0, []⟩ ((archiveGames getGames index).reverse.take k)
        ∧ (visitAll tc pred ⟨0, 0, []⟩
            ((archiveGames getGames index).reverse.take k)).searched = k
        ∧ (visitAll tc pred ⟨0, 0, []⟩ ((archiveGames getGames index).reverse.take k)).acc
            = (((archiveGames getGames index).reverse.take k).filter (tcPass tc)).map
                (fun g => (g, filteredFlag pred g))
        ∧ (∀ j, j < k →
            (visitAll tc pred ⟨0, 0, []⟩
                ((archiveGames getGames index).reverse.take j)).unfiltered ≠ num_games
              ∧ j ≠ max_searched_opt.getD (num_games * 10))
        ∧ (k = (archiveGames getGames index).reverse.length
           ∨ (visitAll tc pred ⟨0, 0, []⟩
                ((archiveGames getGames index).reverse.take k)).unfiltered = num_games
           ∨ k = max_searched_opt.getD (num_games * 10)) := by
  constructor
  · rfl
  · obtain ⟨k, hk, hscan, hmin, hterm⟩ :=
      scanMonthGames_extract num_games (max_searched_opt.getD (num_games * 10)) tc pred
        (archiveGames getGames index).reverse ⟨0, 0, []⟩
    refine ⟨k, hk, ?_, ?_, ?_, ?_, ?_⟩
    · rw [mostRecent_state]
      exact hscan
    · exact visitAll_take_searched tc pred _ k hk
    · rw [visitAll_acc]
      simp
    · intro j hj
      have hstop := hmin j hj
      simp only [stopCond, Bool.or_eq_false_iff, beq_eq_false_iff_ne] at hstop
      refine ⟨hstop.1, ?_⟩
      intro hjM
      exact hstop.2 (by
        rw [visitAll_take_searched tc pred _ j (le_of_lt (lt_of_lt_of_le hj hk))]
        exact hjM)
    · rcases hterm with h | h
      · exact Or.inl h
      · simp only [stopCond, Bool.or_eq_true, beq_iff_eq] at h
        rcases h with h | h
        · exact Or.inr (Or.inl h)
        · refine Or.inr (Or.inr ?_)
          rw [visitAll_take_searched tc pred _ k hk] at h
          exact h

/-! ## Claim theorems: cache tiers and predicate builder -/

lemma lookupGames_save (st : GamesStore) (k : String × String × String)
    (v : List Game) : lookupGames (saveGames st k v) k = some v := by
  unfold lookupGames saveGames
  rw [List.find?_cons_of_pos _ (by simp)]
  rfl

/-- C5: two calls of the tier-2 read-through cache on the same
month-URL return structurally identical data, the second is served from
the persisted record with no remote fetch, and at most one fetch
happens across the two calls. -/
theorem c5_month_cache_idempotent (remote : String → List Game) (month_url : String)
    (st0 : GamesStore) (t : String × String × String)
    (h : extract_url_data month_url = some t) :
    ∃ d st1 f1, getArchivedGames remote month_url st0 = some (d, st1, f1)
      ∧ f1 ≤ 1
      ∧ getArchivedGames remote month_url st1 = some (d, st1, 0) := by
  rcases hl : lookupGames st0 t with _ | d
  · refine ⟨remote month_url, saveGames st0 t (remote month_url), 1, ?_, by omega, ?_⟩
    · simp only [getArchivedGames, h, hl]
    · simp only [getArchivedGames, h, lookupGames_save]
  · refine ⟨d, st0, 0, ?_, by omega, ?_⟩
    · simp only [getArchivedGames, h, hl]
    · simp only [getArchivedGames, h, hl]

/-- Witness for C5: a fresh store, one concrete URL; the second call
reuses the first call's store, returns the same data, and fetches
nothing. -/
theorem c5_month_cache_idempotent_witness :
    (getArchivedGames (fun _ => []) janURL ⟨[]⟩).isSome = true
    ∧ ((getArchivedGames (fun _ => []) janURL ⟨[]⟩).bind
        (fun r => getArchivedGames (fun _ => []) janURL r.2.1))
      = (getArchivedGames (fun _ => []) janURL ⟨[]⟩).map (fun r => (r.1, r.2.1, 0)) := by
  obtain ⟨d, st1, f1, h1, _, h3⟩ :=
    c5_month_cache_idempotent (fun _ => []) janURL ⟨[]⟩ ("alice", "2024", "01")
      (by decide)
  rw [h1]
  exact ⟨rfl, by simpa using h3⟩

/-- C6 fails as stated: HTTP 201 is a 2xx status, yet the index fetch
raises a retrieval error, because the source accepts only status 200
(`if response.status_code == 200`). -/
theorem c6_counterexample :
    (200 ≤ 201 ∧ 201 < 300)
    ∧ (getMonthlyArchivesList ⟨201, []⟩ "alice" ⟨[]⟩).1
        = Except.error ⟨"alice", 201⟩
    ∧ (getMonthlyArchivesList ⟨201, []⟩ "alice" ⟨[]⟩).2 = ⟨[]⟩ := by
  refine ⟨⟨by omega, by omega⟩, rfl, rfl⟩

/-- C6 amended: for a player with no cached index, any response status
other than exactly 200 (including other 2xx codes) makes
`getPlayerIndex` raise `RetrievalError` carrying the status code, with
the store unchanged (no cache file written); a status of exactly 200
succeeds and persists the fetched list. -/
theorem c6_index_error_amended (resp : ListResponse) (player_name : String)
    (st : ListStore) (hmiss : lookupList st player_name = none) :
    (resp.status ≠ 200 →
      getMonthlyArchivesList resp player_name st
        = (Except.error ⟨player_name, resp.status⟩, st))
    ∧ (resp.status = 200 →
      getMonthlyArchivesList resp player_name st
        = (Except.ok resp.archives, saveList st player_name resp.archives)) := by
  constructor
  · intro h
    simp only [getMonthlyArchivesList, hmiss, requestMonthlyArchivesList, if_neg h]
  · intro h
    simp only [getMonthlyArchivesList, hmiss, requestMonthlyArchivesList, if_pos h]

/-- Witness for C6 amended: a 404 on an empty store errors with the
status and writes nothing. -/
theorem c6_index_error_amended_witness :
    getMonthlyArchivesList ⟨404, []⟩ "alice" ⟨[]⟩
      = (Except.error ⟨"alice", 404⟩, ⟨[]⟩) :=
  (c6_index_error_amended ⟨404, []⟩ "alice" ⟨[]⟩ rfl).1 (by decide)

/-- C9: the tier-1 index cache path is keyed by the lower-cased player
name, but the tier-2 month-archive path is NOT — the source computes
the lower-cased file name and then ignores it, joining the raw player
name into the path — so "Alice" and "alice" get different tier-2 cache
records. The concrete evaluation of both embedded path functions shows
the divergence the claim (and the spec) rule out. -/
theorem c9_cache_key_divergence :
    monthlyArchivesFilePath "Alice" = monthlyArchivesFilePath "alice"
    ∧ archivedGamesFilePath "Alice" "2024" "01" ≠ archivedGamesFilePath "alice" "2024" "01" := by
  decide

/-- A drawn game: neither side's result is "win". -/
def drawG : Game :=
  { end_time := 5, time_class := "rapid",
    white := ⟨"a", 1000, "stalemate"⟩, black := ⟨"b", 1000, "stalemate"⟩,
    rated := some true, accuracies := none, rules := some "chess" }

/-- C10: the predicate built with the decisive-result criterion
explicitly set to `False` rejects every drawn game, identically to
setting it to `True` (the builder tests only `is not None`, never the
value); only omitting the criterion disables draw exclusion, as the
concrete drawn game accepted under all-`None` criteria shows. -/
theorem c10_exclude_draws_value_ignored (rated has_acc : Option Bool)
    (med : Option Int) (rl : Option String) (g g2 : Game) (b1 b2 : Bool)
    (hdraw : g.white.result ≠ "win" ∧ g.black.result ≠ "win") :
    build_archive_filter rated has_acc (some false) med rl g = false
    ∧ build_archive_filter rated has_acc (some b1) med rl g2
        = build_archive_filter rated has_acc (some b2) med rl g2
    ∧ build_archive_filter none none none none none drawG = true := by
  refine ⟨?_, rfl, by decide⟩
  unfold build_archive_filter
  split
  · rfl
  · split
    · rfl
    · split
      · rfl
      · split
        · rfl
        · rename_i hcond
          exact absurd (by simp [hdraw.1, hdraw.2]) hcond

/-- Witness for C10 on a concrete drawn game. -/
theorem c10_exclude_draws_value_ignored_witness :
    build_archive_filter none none (some false) none none drawG = false
    ∧ build_archive_filter none none (some true) none none drawG
        = build_archive_filter none none (some false) none none drawG
    ∧ build_archive_filter none none none none none drawG = true :=
  c10_exclude_draws_value_ignored none none none none drawG drawG true false (by decide)

section SanityChecks

example :
    extract_url_data "https://api.chess.com/pub/player/alice/games/2024/01"
      = some ("alice", "2024", "01") := by decide

example : monthKey "https://api.chess.com/pub/player/alice/games/2024/01"
      = some ((2024 : Int), (1 : Int)) := by decide

-- Spec §8 scenario: mostRecent("alice", 4, "rapid") returns end_times
-- [200, 300, 400, 500] in that order (rating correction off here).
example :
    (get_most_recent_games demoGetGames "alice" 4 (some "rapid") none false none
        [janURL, febURL]).map (fun l => l.map (·.end_time))
      = some [200, 300, 400, 500] := by decide

-- Window query over the same cache, gmtime modelled as month #1/#2 of
-- year 2024 by hundreds digit.
example :
    (get_games_between_timestamps (fun ts => (2024, ts / 100)) demoGetGames "alice"
        150 450 (some "rapid") none false [janURL, febURL]).map (fun l => l.map (·.end_time))
      = some [200, 300, 400] := by decide

example :
    correct_archive_elo
      [ { end_time := 1, time_class := "rapid",
          white := ⟨"a", 1000, "win"⟩, black := ⟨"b", 990, "checkmated"⟩,
          rated := some true, accuracies := none, rules := some "chess" },
        { end_time := 2, time_class := "rapid",
          white := ⟨"a", 1010, "win"⟩, black := ⟨"c", 980, "resigned"⟩,
          rated := some true, accuracies := none, rules := some "chess" } ]
      "a"
    = some
      [ { end_time := 1, time_class := "rapid",
          white := ⟨"a", 990, "win"⟩, black := ⟨"b", 1000, "checkmated"⟩,
          rated := some true, accuracies := none, rules := some "chess" },
        { end_time := 2, time_class := "rapid",
          white := ⟨"a", 1000, "win"⟩, black := ⟨"c", 990, "resigned"⟩,
          rated := some true, accuracies := none, rules := some "chess" } ] := by
  decide

end SanityChecks
